import Mathlib

/-!
Verification of the SWE-Flow-Trace repository (Python call tracing).

This file gives a shallow embedding of the two source modules

  * `src/sweflow_trace/python/hooks.py`  (the `CallTracer` class), and
  * `src/sweflow_trace/python/trace.py`  (test collection / orchestration),

and proves the specification claims about them.

Modelling conventions:
  * Python strings are Lean `String`s; most string scanning is done on
    `String.data : List Char` so that everything evaluates in the kernel.
  * Machine integers that appear (line numbers, counters) are `Nat`.
  * Fallible Python code (code that can raise) is modelled with `Except`.
  * The ambient process state used by the code (the current working
    directory consulted by `os.path.abspath`, the global random generator
    consulted by `random.seed` / `random.shuffle`) is passed explicitly.
-/

/-! ## Model of `keyword.iskeyword` and `str.isidentifier` -/

/-- The Python 3 reserved keywords, as returned by `keyword.kwlist`
(used by `keyword.iskeyword` in `CallTracer._is_function`). -/
def pythonKeywords : List String :=
  ["False", "None", "True", "and", "as", "assert", "async", "await",
   "break", "class", "continue", "def", "del", "elif", "else", "except",
   "finally", "for", "from", "global", "if", "import", "in", "is",
   "lambda", "nonlocal", "not", "or", "pass", "raise", "return", "try",
   "while", "with", "yield"]

/-- First character of a Python identifier: a letter or an underscore.
(Python allows some further Unicode categories; the model restricts to
ASCII, which covers every function name the tracer meets in practice.) -/
def isIdentStart (c : Char) : Bool := c.isAlpha || c == '_'

/-- Continuation character of a Python identifier: letter, digit or
underscore (ASCII restriction as in `isIdentStart`). -/
def isIdentCont (c : Char) : Bool := c.isAlphanum || c == '_'

/-- Model of Python's `str.isidentifier`: nonempty, starts with a letter
or underscore, continues with letters, digits or underscores. -/
def pyIsIdentifier (s : String) : Bool :=
  match s.data with
  | [] => false
  | c :: cs => isIdentStart c && cs.all isIdentCont

/-- Model of `CallTracer._is_function` (hooks.py lines 31-44): the name
must be a valid identifier and must not be a reserved keyword. -/
def is_function (funcName : String) : Bool :=
  if !(pyIsIdentifier funcName) then false
  else if pythonKeywords.contains funcName then false
  else true

/-! ## Model of the path operations used by the tracer -/

/-- Model of `os.path.abspath` on POSIX: a path starting with the
separator is already absolute, otherwise it is resolved against the
current working directory `cwd`.  (The `normpath` collapsing of `.` and
`..` segments performed by the real function is not modelled; none of
the claims depends on it.) -/
def abspath (cwd p : String) : String :=
  match p.data with
  | '/' :: _ => p
  | _ => cwd ++ "/" ++ p

/-- Model of `CallTracer._in_base_dir` (hooks.py lines 23-29): convert
to an absolute path, then require the base directory plus separator as a
strict prefix and `.py` as suffix. -/
def in_base_dir (cwd baseDir fileName : String) : Bool :=
  let absPath := abspath cwd fileName
  (baseDir ++ "/").data.isPrefixOf absPath.data && ".py".data.isSuffixOf absPath.data

/-- Model of `str(Path(file_name).relative_to(base_dir))` (hooks.py
lines 65 and 74).  `Path.relative_to` keeps the remainder after the base
directory prefix and raises `ValueError` when the raw `file_name` does
not lie under `base_dir`.  Note the source applies this to the raw
`file_name`, not to the absolutized path used by `_in_base_dir`. -/
def relative_to (fileName baseDir : String) : Except String String :=
  if (baseDir ++ "/").data.isPrefixOf fileName.data then
    .ok (String.mk (fileName.data.drop ((baseDir ++ "/").data.length)))
  else
    .error "ValueError: path is not in the subtree of the base directory"

/-! ## The tracer state and the records it produces -/

/-- The data of a frame as read off by `trace_calls` from the interpreter
frame: `frame.f_code.co_filename`, `frame.f_code.co_name`,
`frame.f_lineno`.  In CPython these are always a `str`, a `str` and an
`int`, which is why the fields are total here. -/
structure FrameInfo where
  fileName : String
  funcName : String
  lineno : Nat
deriving DecidableEq

/-- One entry of `CallTracer.call_stack`: the tuple
`(str(Path(file_name).relative_to(base_dir)), func_name, lineno)`
pushed at hooks.py line 65. -/
structure StackEntry where
  file : String
  func : String
  line : Nat
deriving DecidableEq

/-- One side (`caller` or `callee`) of a recorded edge: the dict
`{"filepath": ..., "lineno": ..., "func_name": ...}` of hooks.py
lines 67-78. -/
structure EdgeEnd where
  filepath : String
  lineno : Nat
  func_name : String
deriving DecidableEq

/-- A recorded call edge (`new_record` in hooks.py lines 67-78).  The
caller fields are all `None` exactly when the call stack was empty, so
the three `None`s are modelled as one `Option`. -/
structure CallRecord where
  caller : Option EdgeEnd
  callee : EdgeEnd
deriving DecidableEq

/-! ## Model of `json.dumps(new_record, sort_keys=True)`

The dedup key at hooks.py line 79 is the canonical JSON serialization of
the record with sorted keys (`callee` before `caller`; inside each:
`filepath`, `func_name`, `lineno`) and the default separators.  The
serializer is reproduced here character for character; the only
simplification is that string escaping handles the two characters that
can appear escaped in these fields (`\` and `"`) rather than the full
control-character table, which keeps the encoding injective. -/

/-- JSON string escaping (backslash and double quote). -/
def jsonEscape : List Char → List Char
  | [] => []
  | c :: cs => if c = '\\' ∨ c = '"' then '\\' :: c :: jsonEscape cs else c :: jsonEscape cs

/-- Auxiliary digit accumulator: peel decimal digits of `n` (least
significant first) onto `acc`; the first argument is structural fuel
(`n` itself suffices) so that the function evaluates in the kernel. -/
def natDataAux : Nat → Nat → List Char → List Char
  | _, 0, acc => acc
  | 0, _, acc => acc
  | fuel + 1, n + 1, acc => natDataAux fuel ((n + 1) / 10) (Nat.digitChar ((n + 1) % 10) :: acc)

/-- Decimal digits of a natural number, most significant first, as
written by `json.dumps` for an `int`. -/
def natData (n : Nat) : List Char :=
  if n = 0 then ['0'] else natDataAux n n []

/-- Serialization of one edge end with sorted keys, written in
continuation style (`t` is the rest of the output). -/
def endData (e : EdgeEnd) (t : List Char) : List Char :=
  "\x7b\"filepath\": ".data ++
    ('"' :: (jsonEscape e.filepath.data ++
      ('"' :: (", \"func_name\": \"".data ++
        (jsonEscape e.func_name.data ++
          ('"' :: (", \"lineno\": ".data ++
            (natData e.lineno ++ ('\x7d' :: t)))))))))

/-- Serialization of the `caller` part: three `null` fields when the
caller is absent, otherwise an ordinary edge end. -/
def callerData : Option EdgeEnd → List Char → List Char
  | none, t => "\x7b\"filepath\": ".data ++
      ('n' :: ("ull, \"func_name\": null, \"lineno\": null\x7d".data ++ t))
  | some e, t => endData e t

/-- The characters of `json.dumps(new_record, sort_keys=True)`. -/
def dumpsData (r : CallRecord) : List Char :=
  "\x7b\"callee\": ".data ++ endData r.callee (", \"caller\": ".data ++ callerData r.caller ['\x7d'])

/-- Model of `json.dumps(new_record, sort_keys=True)` (hooks.py line 79),
the structural dedup key. -/
def jsonDumps (r : CallRecord) : String := String.mk (dumpsData r)

/-- State of one `CallTracer` instance (hooks.py lines 15-21).  The top
of `call_stack` (Python `call_stack[-1]`) is the head of the list here.
`call_records_set` is a Python `set` of strings; only membership is ever
consulted, so it is modelled as a list of the added keys. -/
structure TracerState where
  baseDir : String
  callStack : List StackEntry
  callRecords : List CallRecord
  callRecordsSet : List String
deriving DecidableEq

/-- Model of `CallTracer.__init__` with an explicit base directory (the
`base_dir=None` default resolves to `os.getcwd()` before this state is
formed). -/
def initState (baseDir : String) : TracerState :=
  { baseDir := baseDir, callStack := [], callRecords := [], callRecordsSet := [] }

/-- Model of `CallTracer.trace_calls` (hooks.py lines 46-98) for one
event.  `cwd` is the process working directory consulted by
`os.path.abspath` inside `_in_base_dir`.  The Python method returns the
hook itself (or propagates an exception); the informative outcome is the
mutated tracer state, or the raised error (`Path.relative_to` at line 65
can raise `ValueError`). -/
def traceCalls (cwd : String) (st : TracerState) (fr : FrameInfo) (event : String) :
    Except String TracerState :=
  if event = "call" then
    if !(in_base_dir cwd st.baseDir fr.fileName) || !(is_function fr.funcName) then
      .ok st
    else
      match relative_to fr.fileName st.baseDir with
      | .error e => .error e
      | .ok rel =>
        let caller : Option StackEntry := st.callStack.head?
        let st1 : TracerState :=
          { st with callStack := { file := rel, func := fr.funcName, line := fr.lineno } :: st.callStack }
        let newRecord : CallRecord :=
          { caller := caller.map (fun c => { filepath := c.file, lineno := c.line, func_name := c.func }),
            callee := { filepath := rel, lineno := fr.lineno, func_name := fr.funcName } }
        let recordKey := jsonDumps newRecord
        if recordKey ∈ st1.callRecordsSet then
          .ok st1
        else if caller.isNone then
          -- in the source this is `any(v is None for v in [...])`; the frame
          -- fields are never `None` in CPython, so only the caller fields can be
          .ok st1
        else
          .ok { st1 with
                callRecordsSet := recordKey :: st1.callRecordsSet,
                callRecords := st1.callRecords ++ [newRecord] }
  else if event = "return" then
    .ok (match st.callStack with
      | [] => st
      | top :: rest =>
        if in_base_dir cwd st.baseDir top.file && is_function top.func && top.func == fr.funcName then
          { st with callStack := rest }
        else
          st)
  else
    .ok st

/-- Running the tracer over a list of events (the stream delivered by
`sys.setprofile` between `start()` and `stop()`). -/
def runT (cwd : String) (st : TracerState) : List (FrameInfo × String) → Except String TracerState
  | [] => .ok st
  | (fr, ev) :: es =>
    match traceCalls cwd st fr ev with
    | .error e => .error e
    | .ok st1 => runT cwd st1 es

/-- Whether an event is an eligible call event (hooks.py line 55-56):
a `"call"` event whose file passes `_in_base_dir` and whose function
name passes `_is_function`. -/
def eligCallEv (cwd baseDir : String) (p : FrameInfo × String) : Bool :=
  p.2 == "call" && in_base_dir cwd baseDir p.1.fileName && is_function p.1.funcName

/-- Number of eligible call events in an event list. -/
def countEligCalls (cwd baseDir : String) (es : List (FrameInfo × String)) : Nat :=
  es.countP (fun p => eligCallEv cwd baseDir p)

/-- Number of events of a run that pop the stack: a step pops exactly
when the stack length strictly decreases (by one). -/
def runPops (cwd : String) (st : TracerState) : List (FrameInfo × String) → Nat
  | [] => 0
  | (fr, ev) :: es =>
    match traceCalls cwd st fr ev with
    | .error _ => 0
    | .ok st1 => (st.callStack.length - st1.callStack.length) + runPops cwd st1 es

/-- The guard of the `return` branch (hooks.py lines 92-94): the stack
is nonempty, its top frame is itself eligible, and the top frame's
function name equals the returning function's name. -/
def shouldPop (cwd : String) (st : TracerState) (funcName : String) : Bool :=
  match st.callStack with
  | [] => false
  | top :: _ => in_base_dir cwd st.baseDir top.file && is_function top.func && top.func == funcName

/-- The candidate record an eligible call event would build (hooks.py
lines 59-78): caller from the top of stack (or `None`), callee from the
current frame with the path made relative to the base directory. -/
def candRecord (st : TracerState) (fr : FrameInfo) : Option CallRecord :=
  match relative_to fr.fileName st.baseDir with
  | .error _ => none
  | .ok rel =>
    some { caller := st.callStack.head?.map (fun c => { filepath := c.file, lineno := c.line, func_name := c.func }),
           callee := { filepath := rel, lineno := fr.lineno, func_name := fr.funcName } }

/-- The combined eligibility filter applied to a call event. -/
def eligFrame (cwd baseDir : String) (fr : FrameInfo) : Bool :=
  in_base_dir cwd baseDir fr.fileName && is_function fr.funcName

/-! ## Model of `trace.py` -/

/-- Model of `re.sub(r"\[.*?\]", "", s)` as a left-to-right scan.  A
match starts at a `[` that is followed (anywhere later) by a `]` and
extends, non-greedily, to the nearest such `]`; a `[` with no later `]`
cannot start a match and is kept.  The flag records whether the scan is
currently inside a match being deleted. -/
def stripAux : Bool → List Char → List Char
  | _, [] => []
  | true, c :: rest => if c = ']' then stripAux false rest else stripAux true rest
  | false, c :: rest =>
    if c = '[' then
      if rest.contains ']' then stripAux true rest else '[' :: stripAux false rest
    else c :: stripAux false rest

/-- Model of `re.sub(r"\[.*?\]", "", s)` on strings (trace.py lines 126
and 172): delete every bracketed parametrization group. -/
def pyStripBrackets (s : String) : String := String.mk (stripAux false s.data)

/-- Model of Python `s.split("::")` at the character level: split at
each leftmost-first occurrence of the two-character separator. -/
def splitCC : List Char → List (List Char)
  | [] => [[]]
  | [c] => [[c]]
  | c1 :: c2 :: rest =>
    if c1 = ':' ∧ c2 = ':' then [] :: splitCC rest
    else
      match splitCC (c2 :: rest) with
      | [] => [[c1]]
      | h :: t => (c1 :: h) :: t

/-- Interleave the separator `::` between character-level segments
(used to state which node-id shapes claim C9 covers). -/
def icalCC : List (List Char) → List Char
  | [] => []
  | [a] => a
  | a :: rest => a ++ ':' :: ':' :: icalCC rest

/-- The result dict `test_report['tests'][0]` as consumed by
`get_test_func_id` and `trace_test`: node id, 0-based line number and
outcome string. -/
structure TestResult where
  nodeid : String
  lineno : Nat
  outcome : String
deriving DecidableEq

/-- Model of `get_test_func_id` (trace.py lines 168-176): strip the
parametrization suffix, take the part before the first `::` as file
path and the part after the last `::` as function name, and convert the
0-based line number to 1-based. -/
def get_test_func_id (tr : TestResult) : String :=
  let func_node := stripAux false tr.nodeid.data
  let parts := splitCC func_node
  let filepath := String.mk (parts.headD [])
  let func_name := String.mk (parts.getLastD [])
  filepath ++ ":" ++ toString (tr.lineno + 1) ++ ":" ++ func_name

/-- One entry of `report['collectors'][i]['result']` as consumed by
`collect_tests` (trace.py lines 118-122): the collected item's type and
node id. -/
structure CollectorItem where
  itemType : String
  nodeid : String
deriving DecidableEq

/-- Model of `list(set(xs))` for a list of strings (trace.py line 126).
CPython's set iteration order is an implementation-defined but (within
one process) deterministic function of the inserted elements; it is
modelled as first-occurrence order. -/
def dedupAux (seen : List String) : List String → List String
  | [] => []
  | x :: xs => if seen.contains x then dedupAux seen xs else x :: dedupAux (x :: seen) xs

/-- Model of `random.seed(s)`: the global generator state becomes a
fixed function of the seed alone (the previous state is discarded). -/
def pySeed (s : Nat) : Nat := s

/-- One step of the pseudo-random generator backing the `random`
module.  Python uses a seeded Mersenne Twister; the model uses a seeded
64-bit linear congruential step, which matches it at the interface the
code relies on: a deterministic next state. -/
def lcgNext (g : Nat) : Nat :=
  (6364136223846793005 * g + 1442695040888963407) % 18446744073709551616

/-- Swap two positions of a list (no-op when either index is out of
range). -/
def listSwap (l : List α) (i j : Nat) : List α :=
  match l.get? i, l.get? j with
  | some a, some b => (l.set i b).set j a
  | _, _ => l

/-- The Fisher-Yates loop of `random.shuffle`: for `i` from `len-1`
down to `1`, draw `j` below `i+1` and swap positions `i` and `j`. -/
def shuffleGo : Nat → Nat → List α → List α × Nat
  | 0, g, l => (l, g)
  | i + 1, g, l =>
    let g1 := lcgNext g
    let j := g1 % (i + 2)
    shuffleGo i g1 (listSwap l (i + 1) j)

/-- Model of `random.shuffle(l)` under generator state `g`: the
permuted list and the advanced generator state. -/
def pyShuffle (g : Nat) (l : List α) : List α × Nat :=
  shuffleGo (l.length - 1) g l

/-- Python truthiness of the parsed `--max-tests` value (trace.py line
134 tests `if max_tests:`): `None` and `0` are falsy, every other int
is truthy. -/
def optTruthy : Option Int → Bool
  | none => false
  | some n => n != 0

/-- Model of the Python slice `l[:n]` for an `int` bound `n`: the first
`n` elements when `n` is nonnegative, everything but the last `|n|`
elements when `n` is negative (both clamped). -/
def pySliceTo (n : Int) (l : List α) : List α :=
  if 0 ≤ n then l.take n.toNat else l.take (l.length - (-n).toNat)

/-- Model of `collect_tests` (trace.py lines 79-138) from the point
where the collection report has been read.  `items` is the flattened
`collectors[].result[]` list (the pytest subprocess and the JSON report
file are external collaborators); `g` is the state of the global
`random` generator when the function is entered.  Steps, in source
order: keep only `Function` / `TestCaseFunction` items, strip
parametrization suffixes and deduplicate (`list(set(...))`), optionally
seed the global generator and shuffle, optionally truncate when
`max_tests` is truthy. -/
def collect_tests (items : List CollectorItem) (random : Bool) (random_seed : Nat)
    (max_tests : Option Int) (g : Nat) : List String × Nat :=
  let tests := (items.filter
      (fun it => it.itemType == "Function" || it.itemType == "TestCaseFunction")).map
      (fun it => it.nodeid)
  let tests := dedupAux [] (tests.map pyStripBrackets)
  let p := if random then pyShuffle (pySeed random_seed) tests else (tests, g)
  let tests2 := if optTruthy max_tests then pySliceTo (max_tests.getD 0) p.1 else p.1
  (tests2, p.2)

/-- The corpus entry built by `trace_test` (trace.py lines 207-211). -/
structure TraceRecord where
  testId : String
  testFuncId : String
  callRelations : List CallRecord
deriving DecidableEq

/-- The external effects `trace_test` performs for one test, each of
which can raise: `runTrace` models `run_trace_test` (raises on a
non-zero exit of the hooked pytest subprocess or on timeout), `report`
models `json.load` of `report.json` plus the `['tests'][0]` indexing,
and `traceArtifact` models `json.load` of the trace file. -/
structure TraceTestEnv where
  runTrace : Except String Unit
  report : Except String TestResult
  traceArtifact : Except String (List CallRecord)

/-- Model of `trace_test` (trace.py lines 179-214).  The whole body is
wrapped in `try/except Exception`, so every raised error becomes `none`;
a non-`"passed"` outcome returns `none` before the trace artifact is
read; otherwise the record pairs the test id with the func id and the
parsed call relationships. -/
def trace_test (test : String) (env : TraceTestEnv) : Option TraceRecord :=
  match env.runTrace with
  | .error _ => none
  | .ok _ =>
    match env.report with
    | .error _ => none
    | .ok tr =>
      if tr.outcome != "passed" then none
      else
        match env.traceArtifact with
        | .error _ => none
        | .ok rels => some { testId := test, testFuncId := get_test_func_id tr, callRelations := rels }

/-- Model of the gathering loop of `generate_test_traces` (trace.py
lines 228-237): the input lists the per-test outcomes in completion
order; a truthy (non-`None`) result is appended to the corpus, an empty
result contributes nothing. -/
def generate_test_traces : List (String × TraceTestEnv) → List TraceRecord
  | [] => []
  | (t, env) :: rest =>
    match trace_test t env with
    | some r => r :: generate_test_traces rest
    | none => generate_test_traces rest

/-- Consistency of the dedup set with the record list: the set holds
exactly the serializations of the recorded edges.  This holds for a
fresh tracer and is preserved by every event. -/
def keysMatchRecords (st : TracerState) : Prop :=
  ∀ k, k ∈ st.callRecordsSet ↔ ∃ r ∈ st.callRecords, jsonDumps r = k

/-- An edge end originating from an eligible frame: the recorded
relative path points back into the base directory at a `.py` file and
the function name is a valid non-keyword identifier. -/
def goodEnd (cwd base : String) (e : EdgeEnd) : Prop :=
  in_base_dir cwd base (base ++ "/" ++ e.filepath) = true ∧ is_function e.func_name = true

/-- A stack entry originating from an eligible call event. -/
def goodEntry (cwd base : String) (s : StackEntry) : Prop :=
  in_base_dir cwd base (base ++ "/" ++ s.file) = true ∧ is_function s.func = true

/-! ## Concrete fixtures used by the witnesses -/

/-- A small event stream: an entry call `f`, a nested call `g` (edge
`f` to `g` recorded), a return from `g`, and a second call of `g` (the
duplicate edge, dropped by dedup). -/
def sampleEvents : List (FrameInfo × String) :=
  [({ fileName := "/b/a.py", funcName := "f", lineno := 1 }, "call"),
   ({ fileName := "/b/a.py", funcName := "g", lineno := 2 }, "call"),
   ({ fileName := "/b/a.py", funcName := "g", lineno := 2 }, "return"),
   ({ fileName := "/b/a.py", funcName := "g", lineno := 2 }, "call")]

/-- The single edge recorded while running `sampleEvents`. -/
def sampleRecord : CallRecord :=
  { caller := some { filepath := "a.py", lineno := 1, func_name := "f" },
    callee := { filepath := "a.py", lineno := 2, func_name := "g" } }

/-- The dedup key of `sampleRecord`. -/
def sampleKey : String :=
  "\x7b\"callee\": \x7b\"filepath\": \"a.py\", \"func_name\": \"g\", \"lineno\": 2\x7d, \"caller\": \x7b\"filepath\": \"a.py\", \"func_name\": \"f\", \"lineno\": 1\x7d\x7d"

/-- The tracer state after running `sampleEvents` from
`initState "/b"` with working directory `"/b"`. -/
def sampleFinal : TracerState :=
  { baseDir := "/b",
    callStack := [{ file := "a.py", func := "g", line := 2 }, { file := "a.py", func := "f", line := 1 }],
    callRecords := [sampleRecord],
    callRecordsSet := [sampleKey] }

/-- An in-scope call, an out-of-scope call nested under it, and a
further in-scope call: the out-of-scope frame must be transparent. -/
def nestedEvents : List (FrameInfo × String) :=
  [({ fileName := "/b/a.py", funcName := "f", lineno := 1 }, "call"),
   ({ fileName := "/lib/u.py", funcName := "g", lineno := 2 }, "call"),
   ({ fileName := "/b/a.py", funcName := "h", lineno := 3 }, "call")]

/-- A small collection report: two parametrized variants of one test,
one plain test, and a non-function collector entry. -/
def sampleItems : List CollectorItem :=
  [{ itemType := "Function", nodeid := "m::t[1]" },
   { itemType := "Function", nodeid := "m::t[2]" },
   { itemType := "Module", nodeid := "m" },
   { itemType := "Function", nodeid := "m::u" }]

/-! ## Basic step lemmas about `traceCalls` -/

theorem traceCalls_other (cwd : String) (st : TracerState) (fr : FrameInfo) (ev : String)
    (h1 : ev ≠ "call") (h2 : ev ≠ "return") :
    traceCalls cwd st fr ev = .ok st := by
  simp [traceCalls, h1, h2]

theorem traceCalls_ret (cwd : String) (st : TracerState) (fr : FrameInfo) :
    traceCalls cwd st fr "return" =
      .ok (if shouldPop cwd st fr.funcName then { st with callStack := st.callStack.tail } else st) := by
  cases h : st.callStack with
  | nil => simp [traceCalls, shouldPop, h]
  | cons top rest =>
    by_cases hp : (in_base_dir cwd st.baseDir top.file && is_function top.func && top.func == fr.funcName) = true
    · simp [traceCalls, shouldPop, h, hp]
    · simp [traceCalls, shouldPop, h, hp]

theorem traceCalls_call_inelig (cwd : String) (st : TracerState) (fr : FrameInfo)
    (h : eligFrame cwd st.baseDir fr = false) :
    traceCalls cwd st fr "call" = .ok st := by
  rcases Bool.and_eq_false_iff.mp (by simpa [eligFrame] using h) with h1 | h1 <;>
    simp [traceCalls, h1]

theorem traceCalls_call_err (cwd : String) (st : TracerState) (fr : FrameInfo) (e : String)
    (h1 : eligFrame cwd st.baseDir fr = true)
    (h2 : relative_to fr.fileName st.baseDir = .error e) :
    traceCalls cwd st fr "call" = .error e := by
  obtain ⟨hb, hf⟩ : in_base_dir cwd st.baseDir fr.fileName = true ∧ is_function fr.funcName = true := by
    simpa [eligFrame] using h1
  simp [traceCalls, hb, hf, h2]

theorem traceCalls_call_elig (cwd : String) (st : TracerState) (fr : FrameInfo) (rel : String)
    (h1 : eligFrame cwd st.baseDir fr = true)
    (h2 : relative_to fr.fileName st.baseDir = .ok rel) :
    traceCalls cwd st fr "call" =
      .ok (let caller := st.callStack.head?
           let st1 : TracerState :=
             { st with callStack := { file := rel, func := fr.funcName, line := fr.lineno } :: st.callStack }
           let nr : CallRecord :=
             { caller := caller.map (fun c => { filepath := c.file, lineno := c.line, func_name := c.func }),
               callee := { filepath := rel, lineno := fr.lineno, func_name := fr.funcName } }
           if jsonDumps nr ∈ st.callRecordsSet then st1
           else if caller.isNone then st1
           else { st1 with
                  callRecordsSet := jsonDumps nr :: st.callRecordsSet,
                  callRecords := st.callRecords ++ [nr] }) := by
  obtain ⟨hb, hf⟩ : in_base_dir cwd st.baseDir fr.fileName = true ∧ is_function fr.funcName = true := by
    simpa [eligFrame] using h1
  simp [traceCalls, hb, hf, h2, apply_ite Except.ok]

theorem traceCalls_baseDir (cwd : String) (st st' : TracerState) (fr : FrameInfo) (ev : String)
    (h : traceCalls cwd st fr ev = .ok st') : st'.baseDir = st.baseDir := by
  by_cases hc : ev = "call"
  · subst hc
    by_cases he : eligFrame cwd st.baseDir fr = true
    · cases h2 : relative_to fr.fileName st.baseDir with
      | error e => rw [traceCalls_call_err cwd st fr e he h2] at h; cases h
      | ok rel =>
        rw [traceCalls_call_elig cwd st fr rel he h2] at h
        simp only [Except.ok.injEq] at h
        subst h
        split
        · rfl
        · split <;> rfl
    · rw [traceCalls_call_inelig cwd st fr (by simpa using he)] at h
      cases h; rfl
  · by_cases hr : ev = "return"
    · subst hr
      rw [traceCalls_ret] at h
      simp only [Except.ok.injEq] at h
      subst h
      split <;> rfl
    · rw [traceCalls_other cwd st fr ev hc hr] at h
      cases h; rfl

theorem traceCalls_len (cwd : String) (st st' : TracerState) (fr : FrameInfo) (ev : String)
    (h : traceCalls cwd st fr ev = .ok st') :
    st'.callStack.length + (st.callStack.length - st'.callStack.length) =
      st.callStack.length + (if eligCallEv cwd st.baseDir (fr, ev) then 1 else 0) := by
  by_cases hc : ev = "call"
  · subst hc
    by_cases he : eligFrame cwd st.baseDir fr = true
    · obtain ⟨hb, hf⟩ : in_base_dir cwd st.baseDir fr.fileName = true ∧ is_function fr.funcName = true := by
        simpa [eligFrame] using he
      cases h2 : relative_to fr.fileName st.baseDir with
      | error e => rw [traceCalls_call_err cwd st fr e he h2] at h; cases h
      | ok rel =>
        rw [traceCalls_call_elig cwd st fr rel he h2] at h
        simp only [Except.ok.injEq] at h
        have hlen : st'.callStack.length = st.callStack.length + 1 := by
          subst h
          split
          · rfl
          · split <;> rfl
        have helig : eligCallEv cwd st.baseDir (fr, "call") = true := by
          simp [eligCallEv, hb, hf]
        rw [hlen, helig]
        simp
    · have hef : eligFrame cwd st.baseDir fr = false := by simpa using he
      rw [traceCalls_call_inelig cwd st fr hef] at h
      cases h
      have hne : eligCallEv cwd st.baseDir (fr, "call") = false := by
        rcases Bool.and_eq_false_iff.mp (show (in_base_dir cwd st.baseDir fr.fileName &&
            is_function fr.funcName) = false by simpa [eligFrame] using hef) with hx | hx <;>
          simp [eligCallEv, hx]
      rw [hne]
      simp
  · have hne : eligCallEv cwd st.baseDir (fr, ev) = false := by
      simp [eligCallEv, hc]
    rw [hne]
    by_cases hr : ev = "return"
    · subst hr
      rw [traceCalls_ret] at h
      simp only [Except.ok.injEq] at h
      subst h
      split
      · rename_i hpop
        have hnil : st.callStack ≠ [] := by
          intro hnil
          rw [shouldPop, hnil] at hpop
          cases hpop
        cases hs : st.callStack with
        | nil => exact absurd hs hnil
        | cons a l => simp [hs]
      · simp
    · rw [traceCalls_other cwd st fr ev hc hr] at h
      cases h
      simp

theorem runT_len (cwd : String) :
    ∀ (es : List (FrameInfo × String)) (st st' : TracerState),
      runT cwd st es = .ok st' →
      st'.callStack.length + runPops cwd st es =
        st.callStack.length + countEligCalls cwd st.baseDir es := by
  intro es
  induction es with
  | nil =>
    intro st st' h
    cases h
    simp [runPops, countEligCalls]
  | cons p es ih =>
    intro st st' h
    obtain ⟨fr, ev⟩ := p
    cases h1 : traceCalls cwd st fr ev with
    | error e => rw [runT, h1] at h; cases h
    | ok st1 =>
      rw [runT, h1] at h
      have hrec := ih st1 st' h
      have hstep := traceCalls_len cwd st st1 fr ev h1
      have hbase := traceCalls_baseDir cwd st st1 fr ev h1
      rw [hbase] at hrec
      rw [runPops, h1]
      unfold countEligCalls at hrec ⊢
      rw [List.countP_cons]
      by_cases helig : eligCallEv cwd st.baseDir (fr, ev) = true
      · rw [helig] at hstep
        simp only [helig] at hstep ⊢
        omega
      · have hf : eligCallEv cwd st.baseDir (fr, ev) = false := by simpa using helig
        rw [hf] at hstep
        simp only [hf] at hstep ⊢
        omega

/-! ## Claim C1: stack balance -/

/-- C1: after any prefix of an event stream processed from a fresh
tracer, the stack depth equals the number of eligible call events minus
the number of pops performed so far (each pop matches exactly one
earlier eligible call, namely the most recently pushed unmatched one),
stated as `depth + pops = eligible calls`; moreover ineligible call
events, non-popping return events and all other events leave the state
(hence the depth) unchanged. -/
theorem stack_balance (cwd base : String) (es : List (FrameInfo × String)) (st : TracerState)
    (h : runT cwd (initState base) es = .ok st) :
    (st.callStack.length + runPops cwd (initState base) es = countEligCalls cwd base es)
    ∧ (∀ st1 st1' fr, eligFrame cwd st1.baseDir fr = false →
        traceCalls cwd st1 fr "call" = .ok st1' → st1' = st1)
    ∧ (∀ st1 st1' fr, shouldPop cwd st1 fr.funcName = false →
        traceCalls cwd st1 fr "return" = .ok st1' → st1' = st1)
    ∧ (∀ st1 st1' fr ev, ev ≠ "call" → ev ≠ "return" →
        traceCalls cwd st1 fr ev = .ok st1' → st1' = st1) := by
  refine ⟨?_, ?_, ?_, ?_⟩
  · have hlen := runT_len cwd es (initState base) st h
    simpa [initState] using hlen
  · intro st1 st1' fr hef hok
    rw [traceCalls_call_inelig cwd st1 fr hef] at hok
    cases hok
    rfl
  · intro st1 st1' fr hsp hok
    rw [traceCalls_ret] at hok
    rw [hsp] at hok
    simp only [Bool.false_eq_true, if_false, Except.ok.injEq] at hok
    exact hok.symm
  · intro st1 st1' fr ev h1 h2 hok
    rw [traceCalls_other cwd st1 fr ev h1 h2] at hok
    cases hok
    rfl

/-- Witness for C1 at the concrete stream `sampleEvents`. -/
theorem stack_balance_witness :
    runT "/b" (initState "/b") sampleEvents = .ok sampleFinal
    ∧ sampleFinal.callStack.length + runPops "/b" (initState "/b") sampleEvents =
        countEligCalls "/b" "/b" sampleEvents :=
  ⟨rfl, (stack_balance "/b" "/b" sampleEvents sampleFinal rfl).1⟩

/-! ## Claim C2: the return event pops exactly under the guard -/

/-- C2: an eligible return event pops the stack if and only if the
stack is non-empty, the top frame is itself eligible (stored file path
passes the base-directory filter, function name is a valid non-keyword
identifier), and the top frame's function name equals the returning
function's name; in every other case the state is unchanged.  The
records and the dedup set are never touched by a return event. -/
theorem return_pop_iff (cwd : String) (st : TracerState) (fr : FrameInfo) :
    (traceCalls cwd st fr "return" =
      .ok (if shouldPop cwd st fr.funcName then { st with callStack := st.callStack.tail } else st))
    ∧ (shouldPop cwd st fr.funcName = true ↔
        ∃ top rest, st.callStack = top :: rest ∧
          in_base_dir cwd st.baseDir top.file = true ∧
          is_function top.func = true ∧ top.func = fr.funcName) := by
  refine ⟨traceCalls_ret cwd st fr, ?_⟩
  cases hs : st.callStack with
  | nil => simp [shouldPop, hs]
  | cons top rest =>
    simp only [shouldPop, hs, Bool.and_eq_true, beq_iff_eq]
    constructor
    · rintro ⟨⟨h1, h2⟩, h3⟩
      exact ⟨top, rest, rfl, h1, h2, h3⟩
    · rintro ⟨top', rest', heq, h1, h2, h3⟩
      obtain ⟨rfl, rfl⟩ : top = top' ∧ rest = rest' := by
        simpa using heq
      exact ⟨⟨h1, h2⟩, h3⟩

/-- Witness for C2: a return from `f` with `f` on top of the stack pops
exactly that frame. -/
theorem return_pop_iff_witness :
    traceCalls "/b"
      { baseDir := "/b", callStack := [{ file := "a.py", func := "f", line := 1 }],
        callRecords := [], callRecordsSet := [] }
      { fileName := "/b/a.py", funcName := "f", lineno := 5 } "return" =
    .ok { baseDir := "/b", callStack := [], callRecords := [], callRecordsSet := [] } :=
  (return_pop_iff "/b"
      { baseDir := "/b", callStack := [{ file := "a.py", func := "f", line := 1 }],
        callRecords := [], callRecordsSet := [] }
      { fileName := "/b/a.py", funcName := "f", lineno := 5 }).1

/-! ## Injectivity of the dedup serialization -/

theorem natDataAux_eq : ∀ (fuel n : Nat) (acc : List Char), n ≠ 0 → n ≤ fuel →
    natDataAux fuel n acc = ((Nat.digits 10 n).reverse.map Nat.digitChar) ++ acc := by
  intro fuel
  induction fuel with
  | zero => intro n acc h0 hle; omega
  | succ f ih =>
    intro n acc h0 hle
    match n, h0 with
    | n + 1, _ =>
      rw [show natDataAux (f + 1) (n + 1) acc =
            natDataAux f ((n + 1) / 10) (Nat.digitChar ((n + 1) % 10) :: acc) from rfl]
      rw [Nat.digits_def' (by norm_num : (1:Nat) < 10) (Nat.succ_pos n)]
      by_cases hq : (n + 1) / 10 = 0
      · rw [hq]
        simp [natDataAux]
      · have hqf : (n + 1) / 10 ≤ f := by
          have : (n + 1) / 10 < n + 1 := Nat.div_lt_self (Nat.succ_pos n) (by norm_num)
          omega
        rw [ih ((n + 1) / 10) _ hq hqf]
        simp

theorem natData_eq_digits (n : Nat) (h : n ≠ 0) :
    natData n = (Nat.digits 10 n).reverse.map Nat.digitChar := by
  unfold natData
  rw [if_neg h, natDataAux_eq n n [] h le_rfl, List.append_nil]

theorem digitChar_isDigit : ∀ d, d < 10 → (Nat.digitChar d).isDigit = true := by decide

theorem natData_all_digit (n : Nat) : (natData n).all Char.isDigit = true := by
  by_cases h : n = 0
  · subst h; decide
  · rw [natData_eq_digits n h, List.all_eq_true]
    intro c hc
    obtain ⟨d, hd, rfl⟩ := List.mem_map.mp hc
    exact digitChar_isDigit d (Nat.digits_lt_base (by norm_num) (List.mem_reverse.mp hd))

theorem digitChar_inj_lt : ∀ d, d < 10 → ∀ e, e < 10 → Nat.digitChar d = Nat.digitChar e → d = e := by
  decide

theorem mapDigitChar_inj : ∀ (l1 l2 : List Nat), (∀ d ∈ l1, d < 10) → (∀ d ∈ l2, d < 10) →
    l1.map Nat.digitChar = l2.map Nat.digitChar → l1 = l2 := by
  intro l1
  induction l1 with
  | nil => intro l2 _ _ h; cases l2 with
    | nil => rfl
    | cons e es => simp at h
  | cons d ds ih =>
    intro l2 h1 h2 h
    cases l2 with
    | nil => simp at h
    | cons e es =>
      simp only [List.map_cons, List.cons.injEq] at h
      have hd : d = e :=
        digitChar_inj_lt d (h1 d (List.mem_cons_self d ds)) e (h2 e (List.mem_cons_self e es)) h.1
      have hds : ds = es :=
        ih es (fun x hx => h1 x (List.mem_cons_of_mem d hx))
          (fun x hx => h2 x (List.mem_cons_of_mem e hx)) h.2
      rw [hd, hds]

theorem natData_inj {a b : Nat} (h : natData a = natData b) : a = b := by
  have hbound : ∀ n : Nat, ∀ d ∈ (Nat.digits 10 n).reverse, d < 10 := fun n d hd =>
    Nat.digits_lt_base (by norm_num) (List.mem_reverse.mp hd)
  by_cases ha : a = 0 <;> by_cases hb : b = 0
  · rw [ha, hb]
  · exfalso
    rw [ha, natData_eq_digits b hb] at h
    have h0 : ([0] : List Nat).map Nat.digitChar = (Nat.digits 10 b).reverse.map Nat.digitChar := by
      simpa [Nat.digitChar] using h
    have := mapDigitChar_inj [0] (Nat.digits 10 b).reverse (by simp) (hbound b) h0
    have hdig : Nat.digits 10 b = [0] := by
      have := congrArg List.reverse this
      simpa using this.symm
    have : b = 0 := by
      have hofd := Nat.ofDigits_digits 10 b
      rw [hdig] at hofd
      simpa [Nat.ofDigits] using hofd.symm
    exact hb this
  · exfalso
    rw [hb, natData_eq_digits a ha] at h
    have h0 : ([0] : List Nat).map Nat.digitChar = (Nat.digits 10 a).reverse.map Nat.digitChar := by
      simpa [Nat.digitChar] using h.symm
    have := mapDigitChar_inj [0] (Nat.digits 10 a).reverse (by simp) (hbound a) h0
    have hdig : Nat.digits 10 a = [0] := by
      have := congrArg List.reverse this
      simpa using this.symm
    have : a = 0 := by
      have hofd := Nat.ofDigits_digits 10 a
      rw [hdig] at hofd
      simpa [Nat.ofDigits] using hofd.symm
    exact ha this
  · rw [natData_eq_digits a ha, natData_eq_digits b hb] at h
    have := mapDigitChar_inj _ _ (hbound a) (hbound b) h
    have hdig : Nat.digits 10 a = Nat.digits 10 b := by
      have := congrArg List.reverse this
      simpa using this
    calc a = Nat.ofDigits 10 (Nat.digits 10 a) := (Nat.ofDigits_digits 10 a).symm
    _ = Nat.ofDigits 10 (Nat.digits 10 b) := by rw [hdig]
    _ = b := Nat.ofDigits_digits 10 b

theorem jsonEscape_split : ∀ (s1 s2 t1 t2 : List Char),
    jsonEscape s1 ++ '"' :: t1 = jsonEscape s2 ++ '"' :: t2 → s1 = s2 ∧ t1 = t2 := by
  intro s1
  induction s1 with
  | nil =>
    intro s2 t1 t2 h
    cases s2 with
    | nil => simpa [jsonEscape] using h
    | cons d ds =>
      exfalso
      simp only [jsonEscape, List.nil_append] at h
      by_cases hd : d = '\\' ∨ d = '"'
      · rw [if_pos hd] at h
        simp only [List.cons_append] at h
        injection h with h1 _
        exact absurd h1 (by decide)
      · rw [if_neg hd] at h
        simp only [List.cons_append] at h
        injection h with h1 _
        exact hd (Or.inr h1.symm)
  | cons c cs ih =>
    intro s2 t1 t2 h
    cases s2 with
    | nil =>
      exfalso
      simp only [jsonEscape, List.nil_append] at h
      by_cases hc : c = '\\' ∨ c = '"'
      · rw [if_pos hc] at h
        simp only [List.cons_append] at h
        injection h with h1 _
        exact absurd h1 (by decide)
      · rw [if_neg hc] at h
        simp only [List.cons_append] at h
        injection h with h1 _
        exact hc (Or.inr h1)
    | cons d ds =>
      by_cases hc : c = '\\' ∨ c = '"' <;> by_cases hd : d = '\\' ∨ d = '"'
      · simp only [jsonEscape] at h
        rw [if_pos hc, if_pos hd] at h
        simp only [List.cons_append] at h
        injection h with h1 h2
        injection h2 with h2a h2b
        obtain ⟨hcs, ht⟩ := ih ds t1 t2 h2b
        exact ⟨by rw [h2a, hcs], ht⟩
      · exfalso
        simp only [jsonEscape] at h
        rw [if_pos hc, if_neg hd] at h
        simp only [List.cons_append] at h
        injection h with h1 _
        exact hd (Or.inl h1.symm)
      · exfalso
        simp only [jsonEscape] at h
        rw [if_neg hc, if_pos hd] at h
        simp only [List.cons_append] at h
        injection h with h1 _
        exact hc (Or.inl h1)
      · simp only [jsonEscape] at h
        rw [if_neg hc, if_neg hd] at h
        simp only [List.cons_append] at h
        injection h with h1 h2
        obtain ⟨hcs, ht⟩ := ih ds t1 t2 h2
        exact ⟨by rw [h1, hcs], ht⟩

theorem all_term_split (P : Char → Bool) (x : Char) (hx : P x = false) :
    ∀ (s1 s2 t1 t2 : List Char), s1.all P = true → s2.all P = true →
      s1 ++ x :: t1 = s2 ++ x :: t2 → s1 = s2 ∧ t1 = t2 := by
  intro s1
  induction s1 with
  | nil =>
    intro s2 t1 t2 _ h2 h
    cases s2 with
    | nil => simpa using h
    | cons d ds =>
      exfalso
      simp only [List.nil_append, List.cons_append] at h
      injection h with h1 _
      rw [List.all_cons] at h2
      rw [← h1] at h2
      rw [hx] at h2
      simp at h2
  | cons c cs ih =>
    intro s2 t1 t2 h1 h2 h
    cases s2 with
    | nil =>
      exfalso
      simp only [List.nil_append, List.cons_append] at h
      injection h with ha _
      rw [List.all_cons] at h1
      rw [ha] at h1
      rw [hx] at h1
      simp at h1
    | cons d ds =>
      simp only [List.cons_append] at h
      injection h with ha hb
      rw [List.all_cons, Bool.and_eq_true] at h1 h2
      obtain ⟨hcs, ht⟩ := ih ds t1 t2 h1.2 h2.2 hb
      exact ⟨by rw [ha, hcs], ht⟩

theorem str_data_inj {a b : String} (h : a.data = b.data) : a = b := by
  cases a; cases b
  simp only at h
  rw [h]

theorem endData_split : ∀ (e1 e2 : EdgeEnd) (t1 t2 : List Char),
    endData e1 t1 = endData e2 t2 → e1 = e2 ∧ t1 = t2 := by
  intro e1 e2 t1 t2 h
  unfold endData at h
  have h := List.append_cancel_left h
  injection h with _ h
  obtain ⟨hfp, h⟩ := jsonEscape_split _ _ _ _ h
  have h := List.append_cancel_left h
  obtain ⟨hfn, h⟩ := jsonEscape_split _ _ _ _ h
  have h := List.append_cancel_left h
  obtain ⟨hln, ht⟩ := all_term_split Char.isDigit '\x7d' (by decide) _ _ _ _
    (natData_all_digit _) (natData_all_digit _) h
  refine ⟨?_, ht⟩
  cases e1; cases e2
  simp only at hfp hfn hln
  simp only [EdgeEnd.mk.injEq]
  exact ⟨str_data_inj hfp, natData_inj hln, str_data_inj hfn⟩

theorem callerData_split : ∀ (c1 c2 : Option EdgeEnd) (t1 t2 : List Char),
    callerData c1 t1 = callerData c2 t2 → c1 = c2 ∧ t1 = t2 := by
  intro c1 c2 t1 t2 h
  cases c1 with
  | none =>
    cases c2 with
    | none =>
      unfold callerData at h
      have h := List.append_cancel_left h
      injection h with _ h
      exact ⟨rfl, List.append_cancel_left h⟩
    | some e =>
      exfalso
      unfold callerData endData at h
      have h := List.append_cancel_left h
      injection h with h1 _
      exact absurd h1 (by decide)
  | some e =>
    cases c2 with
    | none =>
      exfalso
      unfold callerData endData at h
      have h := List.append_cancel_left h
      injection h with h1 _
      exact absurd h1 (by decide)
    | some e2 =>
      unfold callerData at h
      obtain ⟨he, ht⟩ := endData_split _ _ _ _ h
      exact ⟨by rw [he], ht⟩

theorem jsonDumps_inj {r1 r2 : CallRecord} (h : jsonDumps r1 = jsonDumps r2) : r1 = r2 := by
  unfold jsonDumps at h
  injection h with h
  unfold dumpsData at h
  have h := List.append_cancel_left h
  obtain ⟨hcallee, h⟩ := endData_split _ _ _ _ h
  have h := List.append_cancel_left h
  obtain ⟨hcaller, _⟩ := callerData_split _ _ _ _ h
  cases r1; cases r2
  simp only at hcallee hcaller
  simp only [CallRecord.mk.injEq]
  exact ⟨hcaller, hcallee⟩

/-! ## Invariants of the record list and the dedup set -/

theorem str_append_data (a b : String) : (a ++ b).data = a.data ++ b.data := by
  cases a; cases b; rfl

theorem relative_to_ok {f base rel : String} (h : relative_to f base = .ok rel) :
    f = base ++ "/" ++ rel := by
  unfold relative_to at h
  split at h
  · rename_i hpre
    obtain ⟨t, ht⟩ := List.isPrefixOf_iff_prefix.mp hpre
    simp only [Except.ok.injEq] at h
    apply str_data_inj
    rw [str_append_data, ← h]
    simp only
    rw [← ht, List.drop_left]
  · cases h

theorem step_inv (cwd : String) (st st' : TracerState) (fr : FrameInfo) (ev : String)
    (h : traceCalls cwd st fr ev = .ok st') (hinv : keysMatchRecords st) :
    keysMatchRecords st'
    ∧ (st'.callRecords = st.callRecords
       ∨ ∃ r, st'.callRecords = st.callRecords ++ [r] ∧ r ∉ st.callRecords ∧
           ev = "call" ∧ candRecord st fr = some r ∧ r.caller.isSome = true) := by
  by_cases hc : ev = "call"
  · subst hc
    by_cases he : eligFrame cwd st.baseDir fr = true
    · cases h2 : relative_to fr.fileName st.baseDir with
      | error e => rw [traceCalls_call_err cwd st fr e he h2] at h; cases h
      | ok rel =>
        rw [traceCalls_call_elig cwd st fr rel he h2] at h
        simp only [Except.ok.injEq] at h
        by_cases hk : jsonDumps
            { caller := st.callStack.head?.map (fun c => { filepath := c.file, lineno := c.line, func_name := c.func }),
              callee := { filepath := rel, lineno := fr.lineno, func_name := fr.funcName } } ∈ st.callRecordsSet
        · rw [if_pos hk] at h
          subst h
          exact ⟨hinv, Or.inl rfl⟩
        · rw [if_neg hk] at h
          by_cases hn : (st.callStack.head?).isNone = true
          · rw [if_pos hn] at h
            subst h
            exact ⟨hinv, Or.inl rfl⟩
          · rw [if_neg hn] at h
            subst h
            constructor
            · intro k
              constructor
              · intro hk'
                rcases List.mem_cons.mp hk' with rfl | hk''
                · exact ⟨_, List.mem_append.mpr (Or.inr (List.mem_singleton.mpr rfl)), rfl⟩
                · obtain ⟨r, hr, hrk⟩ := (hinv k).mp hk''
                  exact ⟨r, List.mem_append.mpr (Or.inl hr), hrk⟩
              · rintro ⟨r, hr, hrk⟩
                rcases List.mem_append.mp hr with hr' | hr'
                · exact List.mem_cons.mpr (Or.inr ((hinv k).mpr ⟨r, hr', hrk⟩))
                · have hre := List.mem_singleton.mp hr'
                  subst hre
                  exact List.mem_cons.mpr (Or.inl hrk.symm)
            · refine Or.inr ⟨_, rfl, ?_, rfl, ?_, ?_⟩
              · intro hmem
                exact hk ((hinv _).mpr ⟨_, hmem, rfl⟩)
              · unfold candRecord
                rw [h2]
              · simp only [Option.isSome_map]
                cases hh : st.callStack.head? with
                | none => exact absurd (by rw [hh]; rfl) hn
                | some c => rfl
    · rw [traceCalls_call_inelig cwd st fr (by simpa using he)] at h
      cases h
      exact ⟨hinv, Or.inl rfl⟩
  · by_cases hr : ev = "return"
    · subst hr
      rw [traceCalls_ret] at h
      simp only [Except.ok.injEq] at h
      subst h
      split
      · exact ⟨fun k => hinv k, Or.inl rfl⟩
      · exact ⟨hinv, Or.inl rfl⟩
    · rw [traceCalls_other cwd st fr ev hc hr] at h
      cases h
      exact ⟨hinv, Or.inl rfl⟩

theorem runT_append (cwd : String) (es1 es2 : List (FrameInfo × String)) :
    ∀ st, runT cwd st (es1 ++ es2) =
      match runT cwd st es1 with
      | .error e => .error e
      | .ok st1 => runT cwd st1 es2 := by
  induction es1 with
  | nil => intro st; rfl
  | cons p es ih =>
    intro st
    obtain ⟨fr, ev⟩ := p
    rw [List.cons_append, runT, runT]
    cases h1 : traceCalls cwd st fr ev with
    | error e => rfl
    | ok st1 => exact ih st1

theorem runT_inv (cwd : String) :
    ∀ (es : List (FrameInfo × String)) (st st' : TracerState),
      runT cwd st es = .ok st' → keysMatchRecords st → st.callRecords.Nodup →
      keysMatchRecords st' ∧ st'.callRecords.Nodup ∧ st.callRecords <+: st'.callRecords := by
  intro es
  induction es with
  | nil => intro st st' h hinv hnd; cases h; exact ⟨hinv, hnd, List.prefix_refl _⟩
  | cons p es ih =>
    intro st st' h hinv hnd
    obtain ⟨fr, ev⟩ := p
    cases h1 : traceCalls cwd st fr ev with
    | error e => rw [runT, h1] at h; cases h
    | ok st1 =>
      rw [runT, h1] at h
      obtain ⟨hinv1, hrec⟩ := step_inv cwd st st1 fr ev h1 hinv
      have hnd1 : st1.callRecords.Nodup := by
        rcases hrec with heq | ⟨r, heq, hnotin, -⟩
        · rw [heq]; exact hnd
        · rw [heq]
          rw [List.nodup_append]
          exact ⟨hnd, List.nodup_singleton r, fun a ha hb => hnotin (by rwa [List.mem_singleton.mp hb] at ha)⟩
      have hpre1 : st.callRecords <+: st1.callRecords := by
        rcases hrec with heq | ⟨r, heq, -, -⟩
        · rw [heq]
        · rw [heq]; exact ⟨[r], rfl⟩
      obtain ⟨hinv', hnd', hpre'⟩ := ih st1 st' h hinv1 hnd1
      exact ⟨hinv', hnd', hpre1.trans hpre'⟩

/-! ## Claim C3: dedup and first-seen order -/

/-- C3: within one tracer run from a fresh state, the exported edge
list never contains two structurally equal records (identity being the
canonical sorted-key serialization, which is injective, so this is
structural equality of all six fields); the list only grows by
appending, so distinct edges appear in first-seen order; and a
candidate edge of an eligible call whose caller is present is in the
final export (so recording it any number of times yields exactly one
entry). -/
theorem dedup_first_seen (cwd base : String) (es : List (FrameInfo × String)) (st : TracerState)
    (h : runT cwd (initState base) es = .ok st) :
    st.callRecords.Nodup
    ∧ (∀ pre post stn, es = pre ++ post → runT cwd (initState base) pre = .ok stn →
        stn.callRecords <+: st.callRecords)
    ∧ (∀ pre post fr r stn, es = pre ++ (fr, "call") :: post →
        runT cwd (initState base) pre = .ok stn →
        eligFrame cwd stn.baseDir fr = true →
        candRecord stn fr = some r → r.caller.isSome = true →
        r ∈ st.callRecords) := by
  have hinit : keysMatchRecords (initState base) := by
    intro k
    simp [initState, keysMatchRecords]
  have hnd0 : (initState base).callRecords.Nodup := by simp [initState]
  obtain ⟨hinv, hnd, -⟩ := runT_inv cwd es _ st h hinit hnd0
  refine ⟨hnd, ?_, ?_⟩
  · intro pre post stn hsplit hpre
    subst hsplit
    rw [runT_append, hpre] at h
    replace h : runT cwd stn post = .ok st := h
    obtain ⟨hinvn, hndn, -⟩ := runT_inv cwd pre _ stn hpre hinit hnd0
    exact (runT_inv cwd post stn st h hinvn hndn).2.2
  · intro pre post fr r stn hsplit hpre helig hcand hcaller
    subst hsplit
    rw [runT_append, hpre] at h
    replace h : runT cwd stn ((fr, "call") :: post) = .ok st := h
    obtain ⟨hinvn, hndn, -⟩ := runT_inv cwd pre _ stn hpre hinit hnd0
    cases h1 : traceCalls cwd stn fr "call" with
    | error e => rw [runT, h1] at h; cases h
    | ok st1 =>
      rw [runT, h1] at h
      obtain ⟨hinv1, hrec⟩ := step_inv cwd stn st1 fr "call" h1 hinvn
      have hnd1 : st1.callRecords.Nodup := by
        rcases hrec with heq | ⟨r', heq, hnotin, -⟩
        · rw [heq]; exact hndn
        · rw [heq, List.nodup_append]
          exact ⟨hndn, List.nodup_singleton r',
            fun a ha hb => hnotin (by rwa [List.mem_singleton.mp hb] at ha)⟩
      have hr1 : r ∈ st1.callRecords := by
        unfold candRecord at hcand
        cases h2 : relative_to fr.fileName stn.baseDir with
        | error e => rw [h2] at hcand; cases hcand
        | ok rel =>
          rw [h2] at hcand
          simp only [Option.some.injEq] at hcand
          subst hcand
          rw [traceCalls_call_elig cwd stn fr rel helig h2] at h1
          simp only [Except.ok.injEq] at h1
          by_cases hk : jsonDumps
              { caller := stn.callStack.head?.map (fun c => { filepath := c.file, lineno := c.line, func_name := c.func }),
                callee := { filepath := rel, lineno := fr.lineno, func_name := fr.funcName } } ∈ stn.callRecordsSet
          · rw [if_pos hk] at h1
            subst h1
            obtain ⟨r', hr', hrk⟩ := (hinvn _).mp hk
            have hr'eq := jsonDumps_inj hrk
            rw [← hr'eq]
            exact hr'
          · rw [if_neg hk] at h1
            by_cases hn : (stn.callStack.head?).isNone = true
            · exfalso
              rw [Option.isNone_iff_eq_none] at hn
              rw [hn] at hcaller
              simp at hcaller
            · rw [if_neg hn] at h1
              subst h1
              exact List.mem_append.mpr (Or.inr (List.mem_singleton.mpr rfl))
      obtain ⟨-, -, hpost⟩ := runT_inv cwd post st1 st h hinv1 hnd1
      exact hpost.subset hr1

/-- Witness for C3: running `sampleEvents` (which records the edge
`f` to `g` twice) leaves exactly one copy in the export. -/
theorem dedup_first_seen_witness :
    runT "/b" (initState "/b") sampleEvents = .ok sampleFinal
    ∧ sampleFinal.callRecords.Nodup :=
  ⟨rfl, (dedup_first_seen "/b" "/b" sampleEvents sampleFinal rfl).1⟩

/-! ## Only eligible frames reach the stack and the records -/

theorem step_good (cwd : String) (st st' : TracerState) (fr : FrameInfo) (ev : String)
    (h : traceCalls cwd st fr ev = .ok st')
    (hstack : ∀ s ∈ st.callStack, goodEntry cwd st.baseDir s)
    (hrecs : ∀ r ∈ st.callRecords,
      goodEnd cwd st.baseDir r.callee ∧ ∀ c, r.caller = some c → goodEnd cwd st.baseDir c) :
    (∀ s ∈ st'.callStack, goodEntry cwd st.baseDir s)
    ∧ (∀ r ∈ st'.callRecords,
        goodEnd cwd st.baseDir r.callee ∧ ∀ c, r.caller = some c → goodEnd cwd st.baseDir c) := by
  by_cases hc : ev = "call"
  · subst hc
    by_cases he : eligFrame cwd st.baseDir fr = true
    · obtain ⟨hb, hf⟩ : in_base_dir cwd st.baseDir fr.fileName = true ∧ is_function fr.funcName = true := by
        simpa [eligFrame] using he
      cases h2 : relative_to fr.fileName st.baseDir with
      | error e => rw [traceCalls_call_err cwd st fr e he h2] at h; cases h
      | ok rel =>
        have hfile : fr.fileName = st.baseDir ++ "/" ++ rel := relative_to_ok h2
        have hin : in_base_dir cwd st.baseDir (st.baseDir ++ "/" ++ rel) = true := by
          rw [← hfile]; exact hb
        have hentry : goodEntry cwd st.baseDir { file := rel, func := fr.funcName, line := fr.lineno } :=
          ⟨hin, hf⟩
        have hcalleeGood : goodEnd cwd st.baseDir { filepath := rel, lineno := fr.lineno, func_name := fr.funcName } :=
          ⟨hin, hf⟩
        have hcallerGood : ∀ c, (st.callStack.head?.map
            (fun c => ({ filepath := c.file, lineno := c.line, func_name := c.func } : EdgeEnd))) = some c →
            goodEnd cwd st.baseDir c := by
          intro c hc
          cases hh : st.callStack.head? with
          | none => rw [hh] at hc; cases hc
          | some s =>
            rw [hh] at hc
            replace hc : some ({ filepath := s.file, lineno := s.line, func_name := s.func } : EdgeEnd) = some c := hc
            injection hc with hc
            have hs : s ∈ st.callStack := by
              apply List.mem_of_mem_head?
              rw [hh]
              rfl
            obtain ⟨hsin, hsfn⟩ := hstack s hs
            rw [← hc]
            exact ⟨hsin, hsfn⟩
        rw [traceCalls_call_elig cwd st fr rel he h2] at h
        simp only [Except.ok.injEq] at h
        by_cases hk : jsonDumps
            { caller := st.callStack.head?.map (fun c => { filepath := c.file, lineno := c.line, func_name := c.func }),
              callee := { filepath := rel, lineno := fr.lineno, func_name := fr.funcName } } ∈ st.callRecordsSet
        · rw [if_pos hk] at h
          subst h
          refine ⟨?_, hrecs⟩
          intro s hs
          rcases List.mem_cons.mp hs with rfl | hs'
          · exact hentry
          · exact hstack s hs'
        · rw [if_neg hk] at h
          by_cases hn : (st.callStack.head?).isNone = true
          · rw [if_pos hn] at h
            subst h
            refine ⟨?_, hrecs⟩
            intro s hs
            rcases List.mem_cons.mp hs with rfl | hs'
            · exact hentry
            · exact hstack s hs'
          · rw [if_neg hn] at h
            subst h
            constructor
            · intro s hs
              rcases List.mem_cons.mp hs with rfl | hs'
              · exact hentry
              · exact hstack s hs'
            · intro r hr
              rcases List.mem_append.mp hr with hr' | hr'
              · exact hrecs r hr'
              · have hre := List.mem_singleton.mp hr'
                subst hre
                exact ⟨hcalleeGood, hcallerGood⟩
    · rw [traceCalls_call_inelig cwd st fr (by simpa using he)] at h
      cases h
      exact ⟨hstack, hrecs⟩
  · by_cases hr : ev = "return"
    · subst hr
      rw [traceCalls_ret] at h
      simp only [Except.ok.injEq] at h
      subst h
      split
      · refine ⟨?_, hrecs⟩
        intro s hs
        exact hstack s (List.mem_of_mem_tail hs)
      · exact ⟨hstack, hrecs⟩
    · rw [traceCalls_other cwd st fr ev hc hr] at h
      cases h
      exact ⟨hstack, hrecs⟩

theorem runT_good (cwd : String) :
    ∀ (es : List (FrameInfo × String)) (st st' : TracerState),
      runT cwd st es = .ok st' →
      (∀ s ∈ st.callStack, goodEntry cwd st.baseDir s) →
      (∀ r ∈ st.callRecords,
        goodEnd cwd st.baseDir r.callee ∧ ∀ c, r.caller = some c → goodEnd cwd st.baseDir c) →
      (∀ s ∈ st'.callStack, goodEntry cwd st.baseDir s)
      ∧ (∀ r ∈ st'.callRecords,
          goodEnd cwd st.baseDir r.callee ∧ ∀ c, r.caller = some c → goodEnd cwd st.baseDir c) := by
  intro es
  induction es with
  | nil => intro st st' h hstack hrecs; cases h; exact ⟨hstack, hrecs⟩
  | cons p es ih =>
    intro st st' h hstack hrecs
    obtain ⟨fr, ev⟩ := p
    cases h1 : traceCalls cwd st fr ev with
    | error e => rw [runT, h1] at h; cases h
    | ok st1 =>
      rw [runT, h1] at h
      obtain ⟨hstack1, hrecs1⟩ := step_good cwd st st1 fr ev h1 hstack hrecs
      have hbase := traceCalls_baseDir cwd st st1 fr ev h1
      rw [← hbase] at hstack1 hrecs1
      obtain ⟨hstack', hrecs'⟩ := ih st1 st' h hstack1 hrecs1
      rw [hbase] at hstack' hrecs'
      exact ⟨hstack', hrecs'⟩

/-! ## Claim C4: ineligible call events are transparent -/

/-- C4: an ineligible call event (file outside the base directory or
not a `.py` file, or an invalid / keyword function name) leaves the
tracer state exactly unchanged, so it is never pushed, never changes
depth, and never alters which ancestor serves as caller; every end of
every recorded edge originates from an eligible frame (its relative
path points into the base directory at a `.py` file and its function
name is a valid non-keyword identifier); and in the concrete
in-scope/out-of-scope/in-scope nesting the in-scope ancestor edge
`f` to `h` is still recorded. -/
theorem inelig_transparent (cwd base : String) (st : TracerState) (fr : FrameInfo)
    (hef : eligFrame cwd st.baseDir fr = false) :
    traceCalls cwd st fr "call" = .ok st
    ∧ (∀ es st', runT cwd (initState base) es = .ok st' →
        ∀ r ∈ st'.callRecords,
          goodEnd cwd base r.callee ∧ ∀ c, r.caller = some c → goodEnd cwd base c)
    ∧ (runT "/b" (initState "/b") nestedEvents).map (fun s => s.callRecords) =
        .ok [{ caller := some { filepath := "a.py", lineno := 1, func_name := "f" },
               callee := { filepath := "a.py", lineno := 3, func_name := "h" } }] := by
  refine ⟨traceCalls_call_inelig cwd st fr hef, ?_, rfl⟩
  intro es st' h
  have hgood := runT_good cwd es (initState base) st' h (by simp [initState]) (by simp [initState])
  exact hgood.2

/-- Witness for C4: the out-of-scope frame of `nestedEvents` leaves a
fresh tracer untouched. -/
theorem inelig_transparent_witness :
    traceCalls "/b" (initState "/b") { fileName := "/lib/u.py", funcName := "g", lineno := 2 } "call" =
      .ok (initState "/b") :=
  (inelig_transparent "/b" "/b" (initState "/b")
      { fileName := "/lib/u.py", funcName := "g", lineno := 2 } (by decide)).1

/-! ## Claim C5: an edge is recorded only with a present caller -/

/-- C5: an eligible call event always pushes the new frame onto the
stack; if the stack was empty (entry point), no edge is recorded; the
record list either stays unchanged or grows by exactly the candidate
edge, and any appended edge has a present (non-null) caller, so all six
fields of a recorded edge are present. -/
theorem record_needs_caller (cwd : String) (st st' : TracerState) (fr : FrameInfo) (rel : String)
    (helig : eligFrame cwd st.baseDir fr = true)
    (hrel : relative_to fr.fileName st.baseDir = .ok rel)
    (h : traceCalls cwd st fr "call" = .ok st') :
    st'.callStack = { file := rel, func := fr.funcName, line := fr.lineno } :: st.callStack
    ∧ (st.callStack = [] → st'.callRecords = st.callRecords)
    ∧ (st'.callRecords = st.callRecords ∨
        ∃ r, candRecord st fr = some r ∧ st'.callRecords = st.callRecords ++ [r] ∧
          r.caller.isSome = true) := by
  rw [traceCalls_call_elig cwd st fr rel helig hrel] at h
  simp only [Except.ok.injEq] at h
  by_cases hk : jsonDumps
      { caller := st.callStack.head?.map (fun c => { filepath := c.file, lineno := c.line, func_name := c.func }),
        callee := { filepath := rel, lineno := fr.lineno, func_name := fr.funcName } } ∈ st.callRecordsSet
  · rw [if_pos hk] at h
    subst h
    exact ⟨rfl, fun _ => rfl, Or.inl rfl⟩
  · rw [if_neg hk] at h
    by_cases hn : (st.callStack.head?).isNone = true
    · rw [if_pos hn] at h
      subst h
      exact ⟨rfl, fun _ => rfl, Or.inl rfl⟩
    · rw [if_neg hn] at h
      subst h
      refine ⟨rfl, ?_, ?_⟩
      · intro hempty
        exfalso
        rw [hempty] at hn
        exact hn rfl
      · refine Or.inr ⟨_, ?_, rfl, ?_⟩
        · unfold candRecord
          rw [hrel]
        · simp only [Option.isSome_map]
          cases hh : st.callStack.head? with
          | none => exact absurd (by rw [hh]; rfl) hn
          | some c => rfl

/-- Witness for C5: the entry-point call of `sampleEvents` pushes but
records nothing. -/
theorem record_needs_caller_witness :
    (initState "/b" : TracerState).callStack = [] ∧
    ({ baseDir := "/b", callStack := [{ file := "a.py", func := "f", line := 1 }],
       callRecords := [], callRecordsSet := [] } : TracerState).callRecords = [] := by
  have h := record_needs_caller "/b" (initState "/b")
    { baseDir := "/b", callStack := [{ file := "a.py", func := "f", line := 1 }],
      callRecords := [], callRecordsSet := [] }
    { fileName := "/b/a.py", funcName := "f", lineno := 1 } "a.py" (by decide) rfl rfl
  exact ⟨rfl, h.2.1 rfl⟩

/-! ## Claim C6: the hook can raise on an eligible relative path -/

/-- C6 (refuted, code bug): the hook is not total.  For a call event
whose `co_filename` is relative (here `"a.py"` with working directory
equal to the base directory `"/b"`), `_in_base_dir` passes because it
absolutizes the path, but `Path(file_name).relative_to(base_dir)` at
hooks.py line 65 is applied to the raw relative path and raises
`ValueError`, so `trace_calls` propagates an exception instead of at
worst dropping the edge. -/
theorem hook_raises_on_relative_path :
    traceCalls "/b" (initState "/b") { fileName := "a.py", funcName := "f", lineno := 1 } "call" =
      .error "ValueError: path is not in the subtree of the base directory" := rfl

/-! ## Claim C7: per-test isolation in the orchestrator -/

/-- C7: `trace_test` yields an empty result whenever the reported
outcome is not `"passed"` (regardless of the trace artifact), and
whenever the hooked run, the report parse or the artifact parse fails;
no such failure escapes `trace_test` (its result type is an `Option`,
total by construction); and the gathered corpus contains exactly the
non-empty per-test results. -/
theorem trace_test_isolation (t : String) (env : TraceTestEnv) :
    (∀ tr, env.report = .ok tr → tr.outcome ≠ "passed" → trace_test t env = none)
    ∧ (∀ e, env.runTrace = .error e → trace_test t env = none)
    ∧ (∀ e, env.report = .error e → trace_test t env = none)
    ∧ (∀ e, env.traceArtifact = .error e → trace_test t env = none)
    ∧ (∀ (completed : List (String × TraceTestEnv)) (r : TraceRecord),
        r ∈ generate_test_traces completed ↔
          ∃ p ∈ completed, trace_test p.1 p.2 = some r) := by
  refine ⟨?_, ?_, ?_, ?_, ?_⟩
  · intro tr hrep hout
    unfold trace_test
    cases hrun : env.runTrace with
    | error e => rfl
    | ok u =>
      have hb : (tr.outcome != "passed") = true := bne_iff_ne.mpr hout
      rw [hrep]
      simp [hb]
  · intro e he
    unfold trace_test
    rw [he]
  · intro e he
    unfold trace_test
    cases hrun : env.runTrace with
    | error e2 => rfl
    | ok u => rw [he]
  · intro e he
    unfold trace_test
    cases hrun : env.runTrace with
    | error e2 => rfl
    | ok u =>
      cases hrep : env.report with
      | error e2 => rfl
      | ok tr =>
        by_cases hout : (tr.outcome != "passed") = true
        · simp [hout]
        · rw [Bool.not_eq_true] at hout
          simp [hout, he]
  · intro completed r
    induction completed with
    | nil => simp [generate_test_traces]
    | cons p rest ih =>
      obtain ⟨t2, env2⟩ := p
      cases htt : trace_test t2 env2 with
      | some r2 =>
        rw [show generate_test_traces ((t2, env2) :: rest) = r2 :: generate_test_traces rest from by
          rw [generate_test_traces, htt]]
        constructor
        · intro hmem
          rcases List.mem_cons.mp hmem with rfl | hmem2
          · exact ⟨(t2, env2), List.mem_cons_self _ _, htt⟩
          · obtain ⟨p, hp, hpt⟩ := ih.mp hmem2
            exact ⟨p, List.mem_cons_of_mem _ hp, hpt⟩
        · rintro ⟨p, hp, hpt⟩
          rcases List.mem_cons.mp hp with rfl | hp2
          · rw [htt] at hpt
            injection hpt with hpt
            rw [← hpt]
            exact List.mem_cons_self _ _
          · exact List.mem_cons_of_mem _ (ih.mpr ⟨p, hp2, hpt⟩)
      | none =>
        rw [show generate_test_traces ((t2, env2) :: rest) = generate_test_traces rest from by
          rw [generate_test_traces, htt]]
        rw [ih]
        constructor
        · rintro ⟨p, hp, hpt⟩
          exact ⟨p, List.mem_cons_of_mem _ hp, hpt⟩
        · rintro ⟨p, hp, hpt⟩
          rcases List.mem_cons.mp hp with rfl | hp2
          · rw [htt] at hpt
            cases hpt
          · exact ⟨p, hp2, hpt⟩

/-- Witness for C7: a test reported `"failed"` contributes nothing even
though its trace artifact parsed. -/
theorem trace_test_isolation_witness :
    trace_test "m::t"
      { runTrace := .ok (), report := .ok { nodeid := "m::t", lineno := 3, outcome := "failed" },
        traceArtifact := .ok [] } = none :=
  (trace_test_isolation "m::t"
      { runTrace := .ok (), report := .ok { nodeid := "m::t", lineno := 3, outcome := "failed" },
        traceArtifact := .ok [] }).1
    { nodeid := "m::t", lineno := 3, outcome := "failed" } rfl (by decide)

/-! ## Claim C8: seeded shuffling is deterministic -/

/-- C8: with shuffling requested, two runs of `collect_tests` over the
same collected items with the same seed produce the same ordered list
of test ids, whatever the state of the global random generator was at
entry in either run, because `random.seed` replaces that state by a
function of the seed alone. -/
theorem shuffle_deterministic (items : List CollectorItem) (seed : Nat) (maxT : Option Int)
    (g1 g2 : Nat) :
    (collect_tests items true seed maxT g1).1 = (collect_tests items true seed maxT g2).1 := rfl

/-! ## Claim C10: a zero cap means no truncation -/

/-- C10: `max_tests` is tested for Python truthiness, so a cap of `0`
is ignored entirely and `collect_tests` returns every canonical test id
exactly as with no cap; truncation to the first `n` elements happens
for a positive cap `n`. -/
theorem max_tests_zero_no_truncation (items : List CollectorItem) (random : Bool) (seed g : Nat) :
    collect_tests items random seed (some 0) g = collect_tests items random seed none g
    ∧ (∀ n : Int, 0 < n →
        (collect_tests items random seed (some n) g).1 =
          ((collect_tests items random seed none g).1).take n.toNat) := by
  constructor
  · rfl
  · intro n hn
    have h1 : (n != 0) = true := bne_iff_ne.mpr (ne_of_gt hn)
    have hslice : ∀ l : List String, pySliceTo n l = l.take n.toNat := by
      intro l
      unfold pySliceTo
      rw [if_pos (le_of_lt hn)]
    simp only [collect_tests, optTruthy, h1, if_true, Option.getD_some]
    exact hslice _

/-- Witness for C10 on `sampleItems`: a zero cap returns all three
canonical ids, a cap of two takes the first two. -/
theorem max_tests_zero_no_truncation_witness :
    collect_tests sampleItems false 42 (some 0) 7 = collect_tests sampleItems false 42 none 7
    ∧ (collect_tests sampleItems false 42 (some 2) 7).1 =
        ((collect_tests sampleItems false 42 none 7).1).take 2 := by
  have h := max_tests_zero_no_truncation sampleItems false 42 7
  exact ⟨h.1, h.2 2 (by norm_num)⟩

/-! ## Lemmas about bracket stripping and `::`-splitting -/

theorem stripAux_clean : ∀ (xs : List Char), '[' ∉ xs → stripAux false xs = xs := by
  intro xs
  induction xs with
  | nil => intro _; rfl
  | cons c cs ih =>
    intro h
    have hc : c ≠ '[' := fun hcc => h (hcc ▸ List.mem_cons_self c cs)
    rw [stripAux, if_neg hc, ih (fun hm => h (List.mem_cons_of_mem c hm))]

theorem stripAux_skip : ∀ (p rest : List Char), ']' ∉ p →
    stripAux true (p ++ ']' :: rest) = stripAux false rest := by
  intro p
  induction p with
  | nil => intro rest _; rw [List.nil_append, stripAux, if_pos rfl]
  | cons c cs ih =>
    intro rest h
    have hc : c ≠ ']' := fun hcc => h (hcc ▸ List.mem_cons_self c cs)
    rw [List.cons_append, stripAux, if_neg hc, ih rest (fun hm => h (List.mem_cons_of_mem c hm))]

theorem stripAux_group : ∀ (xs p rest : List Char), '[' ∉ xs → ']' ∉ p →
    stripAux false (xs ++ '[' :: (p ++ ']' :: rest)) = xs ++ stripAux false rest := by
  intro xs p rest
  induction xs with
  | nil =>
    intro _ hp
    rw [List.nil_append, stripAux, if_pos rfl]
    have hcont : (p ++ ']' :: rest).contains ']' = true :=
      List.elem_iff.mpr (List.mem_append.mpr (Or.inr (List.mem_cons_self _ _)))
    rw [if_pos hcont, stripAux_skip p rest hp, List.nil_append]
  | cons c cs ih =>
    intro h hp
    have hc : c ≠ '[' := fun hcc => h (hcc ▸ List.mem_cons_self c cs)
    rw [List.cons_append, stripAux, if_neg hc, ih (fun hm => h (List.mem_cons_of_mem c hm)) hp,
      List.cons_append]

theorem splitCC_no_colon : ∀ (a : List Char), ':' ∉ a → splitCC a = [a] := by
  intro a
  induction a with
  | nil => intro _; rfl
  | cons c cs ih =>
    intro h
    have hc : c ≠ ':' := fun hcc => h (hcc ▸ List.mem_cons_self c cs)
    cases cs with
    | nil => rfl
    | cons d ds =>
      rw [splitCC, if_neg (fun hand => hc hand.1)]
      rw [ih (fun hm => h (List.mem_cons_of_mem c hm))]

theorem splitCC_sep : ∀ (a b : List Char), ':' ∉ a →
    splitCC (a ++ ':' :: ':' :: b) = a :: splitCC b := by
  intro a
  induction a with
  | nil =>
    intro b _
    rw [List.nil_append, splitCC, if_pos ⟨rfl, rfl⟩]
  | cons c cs ih =>
    intro b h
    have hc : c ≠ ':' := fun hcc => h (hcc ▸ List.mem_cons_self c cs)
    have hcs : ':' ∉ cs := fun hm => h (List.mem_cons_of_mem c hm)
    cases cs with
    | nil =>
      rw [List.cons_append, List.nil_append, splitCC, if_neg (fun hand => hc hand.1)]
      rw [show splitCC (':' :: ':' :: b) = [] :: splitCC b from rfl]
    | cons d ds =>
      rw [show (c :: d :: ds) ++ ':' :: ':' :: b = c :: d :: (ds ++ ':' :: ':' :: b) from rfl]
      rw [splitCC, if_neg (fun hand => hc hand.1)]
      rw [show d :: (ds ++ ':' :: ':' :: b) = (d :: ds) ++ ':' :: ':' :: b from rfl, ih b hcs]

theorem splitCC_icalCC : ∀ (parts : List (List Char)), parts ≠ [] →
    (∀ p ∈ parts, ':' ∉ p) → splitCC (icalCC parts) = parts := by
  intro parts
  induction parts with
  | nil => intro h _; exact absurd rfl h
  | cons a rest ih =>
    intro _ hclean
    cases rest with
    | nil => exact splitCC_no_colon a (hclean a (List.mem_cons_self _ _))
    | cons b bs =>
      rw [show icalCC (a :: b :: bs) = a ++ ':' :: ':' :: icalCC (b :: bs) from rfl]
      rw [splitCC_sep a _ (hclean a (List.mem_cons_self _ _))]
      rw [ih (by simp) (fun p hp => hclean p (List.mem_cons_of_mem a hp))]

theorem icalCC_mem : ∀ (parts : List (List Char)) (c : Char), c ∈ icalCC parts →
    (∃ p ∈ parts, c ∈ p) ∨ c = ':' := by
  intro parts
  induction parts with
  | nil => intro c hc; cases hc
  | cons a rest ih =>
    intro c hc
    cases rest with
    | nil => exact Or.inl ⟨a, List.mem_cons_self _ _, hc⟩
    | cons b bs =>
      rw [show icalCC (a :: b :: bs) = a ++ ':' :: ':' :: icalCC (b :: bs) from rfl] at hc
      rcases List.mem_append.mp hc with hin | hin
      · exact Or.inl ⟨a, List.mem_cons_self _ _, hin⟩
      · rcases List.mem_cons.mp hin with rfl | hin
        · exact Or.inr rfl
        · rcases List.mem_cons.mp hin with rfl | hin
          · exact Or.inr rfl
          · rcases ih c hin with ⟨p, hp, hcp⟩ | hcol
            · exact Or.inl ⟨p, List.mem_cons_of_mem a hp, hcp⟩
            · exact Or.inr hcol

theorem str_mk_data (s : String) : String.mk s.data = s := by
  cases s; rfl

/-! ## Claim C9: the func-id format -/

/-- C9: for a test result whose node id has the shape
`filepath::...::funcname`, optionally followed by one bracketed
parametrization group, and whose reported line number is the 0-based
`L`, `get_test_func_id` strips the parametrization and returns
`"filepath:(L+1):funcname"` (the segments being free of `:`, `[`, `]`,
as pytest path and identifier segments are). -/
theorem func_id_format (tr : TestResult) (filepath funcname : String) (mids : List String)
    (suffix : List Char)
    (hnode : tr.nodeid.data = icalCC ((filepath :: mids ++ [funcname]).map String.data) ++ suffix)
    (hsuffix : suffix = [] ∨ ∃ p, suffix = '[' :: (p ++ [']']) ∧ ']' ∉ p)
    (hclean : ∀ s ∈ filepath :: mids ++ [funcname],
        ':' ∉ s.data ∧ '[' ∉ s.data ∧ ']' ∉ s.data) :
    get_test_func_id tr =
      filepath ++ ":" ++ toString (tr.lineno + 1) ++ ":" ++ funcname := by
  have hbrack : '[' ∉ icalCC ((filepath :: mids ++ [funcname]).map String.data) := by
    intro hmem
    rcases icalCC_mem _ _ hmem with ⟨p, hp, hcp⟩ | hcol
    · obtain ⟨s, hs, rfl⟩ := List.mem_map.mp hp
      exact (hclean s hs).2.1 hcp
    · cases hcol
  have hstrip : stripAux false tr.nodeid.data =
      icalCC ((filepath :: mids ++ [funcname]).map String.data) := by
    rw [hnode]
    rcases hsuffix with rfl | ⟨p, rfl, hp⟩
    · rw [List.append_nil]
      exact stripAux_clean _ hbrack
    · rw [show icalCC ((filepath :: mids ++ [funcname]).map String.data) ++ ('[' :: (p ++ [']'])) =
            icalCC ((filepath :: mids ++ [funcname]).map String.data) ++ ('[' :: (p ++ ']' :: [])) from rfl]
      rw [stripAux_group _ p [] hbrack hp]
      rw [show stripAux false [] = [] from rfl, List.append_nil]
  have hsplit : splitCC (icalCC ((filepath :: mids ++ [funcname]).map String.data)) =
      (filepath :: mids ++ [funcname]).map String.data := by
    apply splitCC_icalCC
    · simp
    · intro p hp
      obtain ⟨s, hs, rfl⟩ := List.mem_map.mp hp
      exact (hclean s hs).1
  simp only [get_test_func_id]
  rw [hstrip, hsplit]
  have hhead : (((filepath :: mids ++ [funcname]).map String.data).headD []) = filepath.data := rfl
  have hlast : (((filepath :: mids ++ [funcname]).map String.data).getLastD []) = funcname.data := by
    rw [show (filepath :: mids ++ [funcname] : List String) = (filepath :: mids) ++ [funcname] from rfl]
    rw [List.map_append]
    rw [show List.map String.data [funcname] = [funcname.data] from rfl]
    rw [List.getLastD_concat]
  rw [hhead, hlast, str_mk_data, str_mk_data]

/-- Witness for C9: `test_function` in `test_file` at 0-based line 9
yields `"test_file:10:test_function"`. -/
theorem func_id_format_witness :
    get_test_func_id { nodeid := "test_file::test_function[1-2]", lineno := 9, outcome := "passed" } =
      "test_file:10:test_function" := by
  have h := func_id_format
    { nodeid := "test_file::test_function[1-2]", lineno := 9, outcome := "passed" }
    "test_file" "test_function" [] ('[' :: ("1-2".data ++ [']']))
    (by decide)
    (Or.inr ⟨"1-2".data, rfl, by decide⟩)
    (by decide)
  simpa using h

/-- Format check of the serializer on a concrete record: the dedup key
is exactly the Python `json.dumps(..., sort_keys=True)` output. -/
theorem jsonDumps_sample : jsonDumps sampleRecord = sampleKey := rfl
